import Mathlib

/-!
Verification of the live voice-conversation pipeline and helpers of the
Fluency-English application.

The definitions below are shallow embeddings of the TypeScript source:
the `LiveConversation` component (base64 helpers `encodePCM` / `decodeAudio`,
the `onMessage` playback scheduler over `nextStartTimeRef` / `sourcesRef`,
the lifecycle status handling in `startSession` / `stopSession` and the
transport callbacks), the `historyService` local-storage module, and
`arrayBufferToBase64` from `geminiService`.

JavaScript numbers are idealised as rationals; byte values are naturals with
explicit `% 256` / `% 65536` wrapping where the host coerces; strings are
lists of characters, binary strings lists of character codes.
-/

namespace Fluency

/-! ### Base64 transport encoding (encodePCM / decodeAudio / arrayBufferToBase64)

`encodePCM` builds a binary string one `String.fromCharCode(bytes[i])` at a
time and applies `btoa`; `decodeAudio` applies `atob` and reads the codes
back with `charCodeAt` into a `Uint8Array`.  Binary strings are lists of
character codes; `btoa` / `atob` are the host's standard base64 on those
codes. -/

def b64Alphabet : List Char :=
  "ABCDEFGHIJKLMNOPQRSTUVWXYZabcdefghijklmnopqrstuvwxyz0123456789+/".toList

def b64Char (n : ℕ) : Char := b64Alphabet.getD n 'A'

def b64Index (c : Char) : ℕ := b64Alphabet.indexOf c

/-- Regroup 8-bit codes into 6-bit values, 3 codes to 4 sextets, as `btoa`
does; a trailing group of 1 or 2 codes yields 2 or 3 sextets. -/
def bytesToSextets : List ℕ → List ℕ
  | a :: b :: c :: rest =>
    a / 4 :: (a % 4 * 16 + b / 16) :: (b % 16 * 4 + c / 64) :: c % 64 ::
      bytesToSextets rest
  | [a, b] => [a / 4, a % 4 * 16 + b / 16, b % 16 * 4]
  | [a] => [a / 4, a % 4 * 16]
  | [] => []

/-- Regroup 6-bit values back into 8-bit codes, 4 sextets to 3 codes, as
`atob` does after discarding padding; trailing groups of 3 or 2 sextets
yield 2 or 1 codes. -/
def sextetsToBytes : List ℕ → List ℕ
  | w :: x :: y :: z :: rest =>
    (w * 4 + x / 16) :: (x % 16 * 16 + y / 4) :: (y % 4 * 64 + z) ::
      sextetsToBytes rest
  | [w, x, y] => [w * 4 + x / 16, x % 16 * 16 + y / 4]
  | [w, x] => [w * 4 + x / 16]
  | _ => []

def b64Padding (n : ℕ) : List Char :=
  if n % 3 = 1 then ['=', '=']
  else if n % 3 = 2 then ['=']
  else []

/-- `btoa` on a binary string given by its character codes. -/
def btoa (codes : List ℕ) : List Char :=
  (bytesToSextets codes).map b64Char ++ b64Padding codes.length

/-- `atob`, returning the character codes of the binary string it produces. -/
def atob (s : List Char) : List ℕ :=
  sextetsToBytes ((s.takeWhile fun c => c != '=').map b64Index)

/-- `String.fromCharCode` wraps its argument modulo 2^16. -/
def fromCharCode (n : ℕ) : ℕ := n % 65536

/-- `encodePCM` (LiveConversation): append `fromCharCode(bytes[i])` for each
byte of the input, then `btoa` the accumulated binary string. -/
def encodePCM (bytes : List ℕ) : List Char :=
  btoa (bytes.foldl (fun binary b => binary ++ [fromCharCode b]) [])

/-- `arrayBufferToBase64` (geminiService): view the buffer as bytes, append
`fromCharCode(bytes[i])` for each, then `btoa`. -/
def arrayBufferToBase64 (buffer : List ℕ) : List Char :=
  btoa (buffer.foldl (fun binary b => binary ++ [fromCharCode b]) [])

/-- `decodeAudio` (LiveConversation): `atob`, then store each
`charCodeAt(i)` into a `Uint8Array` (which wraps modulo 256). -/
def decodeAudio (s : List Char) : List ℕ :=
  (atob s).map (fun code => code % 256)

/-! ### Session lifecycle (LiveConversation status state machine)

`status` is one of `idle | connecting | connected | error`.  `startSession`
sets `connecting` on entry; the transport callbacks set `connected` (open),
`idle` (close), `error` (error); the `catch` block of `startSession` sets
`error`; `stopSession` sets `idle`.  Every `setStatus` call in the source is
unconditional, so the step function ignores the current state. -/

inductive SessionStatus
  | idle
  | connecting
  | connected
  | error
deriving DecidableEq, Repr

inductive SessionEvent
  | startCall      -- user invokes startSession: setStatus('connecting')
  | openEvt        -- transport onOpen callback: setStatus('connected')
  | closeEvt       -- transport onClose callback: setStatus('idle')
  | errorEvt       -- transport onError callback: setStatus('error')
  | startFail      -- startSession catch block: setStatus('error')
  | stopCall       -- user invokes stopSession: setStatus('idle')
deriving DecidableEq, Repr

def statusStep : SessionStatus → SessionEvent → SessionStatus
  | _, .startCall => .connecting
  | _, .openEvt => .connected
  | _, .closeEvt => .idle
  | _, .errorEvt => .error
  | _, .startFail => .error
  | _, .stopCall => .idle

/-! ### Playback scheduling (onMessage audio branch)

Source lines: `nextStartTimeRef.current = Math.max(nextStartTimeRef.current,
outputCtx.currentTime); source.start(nextStartTimeRef.current);
nextStartTimeRef.current += buffer.duration;`.

`runSchedule clock msgs` processes a list of inbound chunks, each given as a
pair `(currentTime, duration)` — the output context's current time at arrival
and the decoded buffer's duration — and returns the list of
`(startTime, duration)` pairs actually scheduled. -/

def runSchedule (clock : ℚ) : List (ℚ × ℚ) → List (ℚ × ℚ)
  | [] => []
  | (t, d) :: rest =>
    let start := max clock t
    (start, d) :: runSchedule (start + d) rest

/-! ### Full message handler state (audio branch plus interrupted branch)

State mirrors the mutable refs: `nextStartTime` is `nextStartTimeRef.current`,
`active` the contents of `sourcesRef.current` (source nodes as ids), and
`stopped` records every id on which `.stop()` was called.  A server message
carries an optional inline audio payload (represented by its decoded
duration) and the `interrupted` flag; the audio branch runs first, then the
interrupted branch, exactly as in the source. -/

structure PlayerState where
  nextStartTime : ℚ
  active : List ℕ
  stopped : List ℕ
deriving DecidableEq, Repr

structure ServerMessage where
  audioDuration : Option ℚ
  interrupted : Bool
deriving DecidableEq, Repr

/-- One invocation of the `onMessage` callback.  `currentTime` is
`outputCtx.currentTime`, `unitId` the fresh buffer-source node created for an
audio payload.  Returns the new state and the start time scheduled for the
payload, if any. -/
def onMessage (currentTime : ℚ) (unitId : ℕ) (msg : ServerMessage)
    (st : PlayerState) : PlayerState × Option ℚ :=
  let res :=
    match msg.audioDuration with
    | some d =>
      let start := max st.nextStartTime currentTime
      ({ st with
          nextStartTime := start + d,
          active := st.active ++ [unitId] }, some start)
    | none => (st, none)
  if msg.interrupted then
    ({ nextStartTime := 0, active := [],
       stopped := res.1.stopped ++ res.1.active }, res.2)
  else res

/-! ### Resource handling around the lifecycle

`streamRef` holds the microphone stream, `audioContextRef` the output audio
context.  `stopSession` stops every track of an acquired stream and closes an
acquired context; the `onError` transport callback and the `startSession`
catch block only log and call `setStatus('error')`. -/

structure ResourceState where
  status : SessionStatus
  streamAcquired : Bool
  micTracksStopped : Bool
  ctxAcquired : Bool
  ctxClosed : Bool
deriving DecidableEq, Repr

/-- The transport `onError` callback (`console.error(err);
setStatus('error')`): only the status changes. -/
def onErrorHandler (st : ResourceState) : ResourceState :=
  { st with status := .error }

/-- The `startSession` catch block (`console.error(...);
setStatus('error')`): only the status changes. -/
def startCatchHandler (st : ResourceState) : ResourceState :=
  { st with status := .error }

/-- `stopSession`: stop the tracks of an acquired stream, close an acquired
context, set status to idle. -/
def stopSessionRes (st : ResourceState) : ResourceState :=
  { st with
      micTracksStopped := if st.streamAcquired then true else st.micTracksStopped,
      ctxClosed := if st.ctxAcquired then true else st.ctxClosed,
      status := .idle }

/-! ### Capture conversion to 16-bit integers

Source: `int16[i] = inputData[i] * 32768`.  Assignment into an `Int16Array`
applies the ToInt16 coercion: truncate toward zero, reduce modulo 2^16, and
reinterpret the residue in [-2^15, 2^15). -/

/-- Truncation toward zero, as JavaScript ToIntegerOrInfinity does. -/
def jsTrunc (q : ℚ) : ℤ :=
  if 0 ≤ q then ⌊q⌋ else ⌈q⌉

/-- `int16[i] = inputData[i] * 32768` with Int16Array store semantics. -/
def toInt16 (x : ℚ) : ℤ :=
  let t := jsTrunc (x * 32768)
  let m := t % 65536
  if m < 32768 then m else m - 65536

/-! ### Loudness metric (onaudioprocess volume computation)

Source: `let sum = 0; for(...) sum += inputData[i] * inputData[i];
setVolume(Math.sqrt(sum / inputData.length))` — the root-mean-square of the
frame's samples. -/

def sumSquares (samples : List ℚ) : ℚ :=
  samples.foldl (fun acc x => acc + x * x) 0

noncomputable def frameVolume (samples : List ℚ) : ℝ :=
  Real.sqrt ((sumSquares samples / (samples.length : ℚ) : ℚ))

/-! ### The send path during connection establishment

Source: `sessionPromiseRef.current?.then(session =>
session.sendRealtimeInput({ media: ... }))`.  The promise is modelled by its
status plus the list of callbacks (frame payloads) registered while pending;
`?.` short-circuits on a null ref, `.then` on a pending promise defers the
callback, on a resolved promise runs it, and on a rejected promise discards
it.  `sentLog` records payloads actually passed to `sendRealtimeInput`. -/

inductive PromiseStatus
  | pending
  | resolvedSession
  | rejected
deriving DecidableEq, Repr

structure SessionPromise where
  status : PromiseStatus
  queuedSends : List ℕ
deriving DecidableEq, Repr

def sendFrame (p : Option SessionPromise) (sentLog : List ℕ) (payload : ℕ) :
    Option SessionPromise × List ℕ :=
  match p with
  | none => (none, sentLog)
  | some pr =>
    match pr.status with
    | .pending => (some { pr with queuedSends := pr.queuedSends ++ [payload] }, sentLog)
    | .resolvedSession => (some pr, sentLog ++ [payload])
    | .rejected => (some pr, sentLog)

/-- A run of capture callbacks, each pushing one frame through the send
path. -/
def processFrames (p : Option SessionPromise) (sentLog : List ℕ) :
    List ℕ → Option SessionPromise × List ℕ
  | [] => (p, sentLog)
  | f :: fs => processFrames (sendFrame p sentLog f).1 (sendFrame p sentLog f).2 fs

/-! ### History storage (historyService.ts)

Local storage under the history key is modelled by its parse outcome: no
value stored, a stored value `JSON.parse` rejects, or a parsed list of
items.  The record types follow `types.ts`. -/

inductive CEFRLevel
  | A1
  | A2
  | B1
  | B2
  | C1
deriving DecidableEq, Repr

structure EvaluationResult where
  grammar_correction : String
  vocabulary_suggestions : String
  sentence_structure_fix : String
  strengths : List String
  weaknesses : List String
  score : ℚ
  corrected_answer : String
  professional_model_answer : String
deriving DecidableEq, Repr

structure HistoryItem where
  id : String
  timestamp : ℚ
  levelId : CEFRLevel
  topicName : String
  question : String
  userAnswer : String
  evaluation : EvaluationResult
deriving DecidableEq, Repr

inductive StoredHistory
  | absent
  | corrupt
  | valid (items : List HistoryItem)
deriving DecidableEq, Repr

/-- `getHistory`: empty list when nothing is stored or parsing throws,
otherwise the parsed list. -/
def getHistory : StoredHistory → List HistoryItem
  | .absent => []
  | .corrupt => []
  | .valid items => items

/-- `saveHistoryItem`: prepend the new item to the existing history and keep
the first 50 entries (`[item, ...existing].slice(0, 50)`). -/
def saveHistoryItem (item : HistoryItem) (s : StoredHistory) : StoredHistory :=
  .valid ((item :: getHistory s).take 50)

/-! ### Theorems -/

theorem foldl_fromCharCode (l : List ℕ) (acc : List ℕ) :
    l.foldl (fun binary b => binary ++ [fromCharCode b]) acc =
      acc ++ l.map fromCharCode := by
  induction l generalizing acc with
  | nil => simp
  | cons b l ih => simp [ih]

theorem map_fromCharCode_id (l : List ℕ) (h : ∀ b ∈ l, b < 256) :
    l.map fromCharCode = l := by
  induction l with
  | nil => rfl
  | cons b l ih =>
    have hb : b < 256 := h b (List.mem_cons_self b l)
    simp only [List.map_cons]
    rw [show fromCharCode b = b by unfold fromCharCode; omega,
      ih fun x hx => h x (List.mem_cons_of_mem b hx)]

theorem map_mod256_id (l : List ℕ) (h : ∀ b ∈ l, b < 256) :
    l.map (fun code => code % 256) = l := by
  induction l with
  | nil => rfl
  | cons b l ih =>
    have hb : b < 256 := h b (List.mem_cons_self b l)
    simp only [List.map_cons]
    rw [show b % 256 = b by omega, ih fun x hx => h x (List.mem_cons_of_mem b hx)]

theorem b64Index_b64Char : ∀ n, n < 64 → b64Index (b64Char n) = n := by decide

theorem b64Char_ne_pad : ∀ n, n < 64 → (b64Char n != '=') = true := by decide

theorem bytesToSextets_lt (bytes : List ℕ) (h : ∀ b ∈ bytes, b < 256) :
    ∀ s ∈ bytesToSextets bytes, s < 64 := by
  induction bytes using bytesToSextets.induct with
  | case1 a b c rest ih =>
    intro s hs
    simp only [bytesToSextets, List.mem_cons] at hs
    have ha := h a (by simp)
    have hb := h b (by simp)
    have hc := h c (by simp)
    rcases hs with h1 | h1 | h1 | h1 | h1
    · omega
    · omega
    · omega
    · omega
    · exact ih (fun x hx => h x (by simp [hx])) s h1
  | case2 a b =>
    intro s hs
    have ha := h a (by simp)
    have hb := h b (by simp)
    simp only [bytesToSextets, List.mem_cons] at hs
    rcases hs with h1 | h1 | h1 | h1 <;> first | omega | simp at h1
  | case3 a =>
    intro s hs
    have ha := h a (by simp)
    simp only [bytesToSextets, List.mem_cons] at hs
    rcases hs with h1 | h1 | h1 <;> first | omega | simp at h1
  | case4 => intro s hs; simp [bytesToSextets] at hs

theorem takeWhile_append_of_all (p : Char → Bool) (l1 l2 : List Char)
    (h : ∀ c ∈ l1, p c = true) :
    (l1 ++ l2).takeWhile p = l1 ++ l2.takeWhile p := by
  induction l1 with
  | nil => rfl
  | cons c l1 ih =>
    simp only [List.cons_append, List.takeWhile_cons,
      h c (List.mem_cons_self c l1)]
    rw [ih fun x hx => h x (List.mem_cons_of_mem c hx)]
    simp

theorem takeWhile_padding (n : ℕ) :
    (b64Padding n).takeWhile (fun c => c != '=') = [] := by
  unfold b64Padding
  split
  · rfl
  · split <;> rfl

theorem map_b64Index_map_b64Char (l : List ℕ) (h : ∀ s ∈ l, s < 64) :
    (l.map b64Char).map b64Index = l := by
  induction l with
  | nil => rfl
  | cons s l ih =>
    simp only [List.map_cons]
    rw [b64Index_b64Char s (h s (List.mem_cons_self s l)),
      ih fun x hx => h x (List.mem_cons_of_mem s hx)]

theorem sextetsToBytes_bytesToSextets (bytes : List ℕ)
    (h : ∀ b ∈ bytes, b < 256) :
    sextetsToBytes (bytesToSextets bytes) = bytes := by
  induction bytes using bytesToSextets.induct with
  | case1 a b c rest ih =>
    have ha := h a (by simp)
    have hb := h b (by simp)
    have hc := h c (by simp)
    simp only [bytesToSextets, sextetsToBytes, List.cons.injEq]
    exact ⟨by omega, by omega, by omega,
      ih fun x hx => h x (by simp [hx])⟩
  | case2 a b =>
    have ha := h a (by simp)
    have hb := h b (by simp)
    simp only [bytesToSextets, sextetsToBytes, List.cons.injEq]
    exact ⟨by omega, by omega, trivial⟩
  | case3 a =>
    have ha := h a (by simp)
    simp only [bytesToSextets, sextetsToBytes, List.cons.injEq]
    exact ⟨by omega, trivial⟩
  | case4 => rfl

/-- Claim C3: decoding the transport encoding of any byte array yields the
original bytes exactly — `decodeAudio (encodePCM bytes) = bytes`, bit-for-bit
and length-preserving, for every list of byte values. -/
theorem decode_encode_roundtrip (bytes : List ℕ) (h : ∀ b ∈ bytes, b < 256) :
    decodeAudio (encodePCM bytes) = bytes := by
  have hbin : bytes.foldl (fun binary b => binary ++ [fromCharCode b]) [] =
      bytes := by
    rw [foldl_fromCharCode, List.nil_append, map_fromCharCode_id bytes h]
  have hltb := bytesToSextets_lt bytes h
  unfold decodeAudio encodePCM
  rw [hbin]
  unfold atob btoa
  rw [takeWhile_append_of_all _ _ _ ?hall, takeWhile_padding, List.append_nil,
    map_b64Index_map_b64Char _ hltb, sextetsToBytes_bytesToSextets bytes h,
    map_mod256_id bytes h]
  case hall =>
    intro c hc
    obtain ⟨s, hs, rfl⟩ := List.mem_map.mp hc
    exact b64Char_ne_pad s (hltb s hs)

/-- Witness for C3: a five-byte frame (so the encoding ends in one padding
character) round-trips exactly. -/
theorem decode_encode_roundtrip_witness :
    decodeAudio (encodePCM [77, 97, 110, 255, 0]) = [77, 97, 110, 255, 0] :=
  decode_encode_roundtrip [77, 97, 110, 255, 0] (by decide)

/-- Claim C10: the two independently defined byte-to-base64 encoders —
`arrayBufferToBase64` in the service layer and `encodePCM` in the
live-conversation component — compute the same function on every byte
sequence. -/
theorem encoders_agree (bytes : List ℕ) :
    arrayBufferToBase64 bytes = encodePCM bytes := rfl

theorem runSchedule_cons (clock t d : ℚ) (rest : List (ℚ × ℚ)) :
    runSchedule clock ((t, d) :: rest) =
      (max clock t, d) :: runSchedule (max clock t + d) rest := rfl

/-- Claim C1: in every run of the playback scheduler, chunk n+1's scheduled
start time is at least chunk n's start time plus chunk n's duration (no two
scheduled playback units overlap), and whenever the output time at chunk
n+1's arrival is at or behind the advanced clock, chunk n+1 starts exactly at
chunk n's start plus chunk n's duration (gapless chaining). -/
theorem schedule_no_overlap_gapless (clock : ℚ) (msgs : List (ℚ × ℚ))
    (i : ℕ) (s1 d1 s2 d2 t2 e2 : ℚ)
    (h1 : (runSchedule clock msgs)[i]? = some (s1, d1))
    (h2 : (runSchedule clock msgs)[i + 1]? = some (s2, d2))
    (h3 : msgs[i + 1]? = some (t2, e2)) :
    s1 + d1 ≤ s2 ∧ (t2 ≤ s1 + d1 → s2 = s1 + d1) := by
  induction msgs generalizing clock i with
  | nil => simp [runSchedule] at h1
  | cons p rest ih =>
    obtain ⟨t, d⟩ := p
    rw [runSchedule_cons] at h1 h2
    cases i with
    | zero =>
      simp only [List.getElem?_cons_zero, Option.some.injEq, Prod.mk.injEq] at h1
      obtain ⟨hs1, hd1⟩ := h1
      simp only [List.getElem?_cons_succ] at h2 h3
      cases rest with
      | nil => simp at h3
      | cons q rest2 =>
        obtain ⟨t2x, e2x⟩ := q
        simp only [List.getElem?_cons_zero, Option.some.injEq, Prod.mk.injEq] at h3
        rw [runSchedule_cons] at h2
        simp only [List.getElem?_cons_zero, Option.some.injEq, Prod.mk.injEq] at h2
        obtain ⟨hs2, _⟩ := h2
        obtain ⟨ht2, _⟩ := h3
        subst hs1 hd1 hs2 ht2
        constructor
        · exact le_max_left _ _
        · intro hle
          exact max_eq_left hle
    | succ j =>
      simp only [List.getElem?_cons_succ] at h1 h2 h3
      exact ih (max clock t + d) j h1 h2 h3

/-- Witness for C1: the spec scenario — two chunks of duration 0.5 s and
0.3 s arriving back-to-back (output time 0) with the clock started at 0: the
second unit starts exactly 0.5 s after the first. -/
theorem schedule_no_overlap_gapless_witness :
    (0 : ℚ) + 1 / 2 ≤ 1 / 2 ∧ ((0 : ℚ) ≤ 0 + 1 / 2 → (1 / 2 : ℚ) = 0 + 1 / 2) :=
  schedule_no_overlap_gapless 0 [(0, 1 / 2), (0, 3 / 10)] 0 0 (1 / 2)
    (1 / 2) (3 / 10) 0 (3 / 10) (by norm_num [runSchedule])
    (by norm_num [runSchedule]) (by norm_num)

/-- Claim C2: for every player state, a message carrying the interruption
flag (with or without an audio payload) leaves the active set empty, records
a stop for every previously active unit, and resets the virtual output clock
to zero; the start time of any chunk received next is computed as
`max 0 currentTime`, i.e. from a clock value of zero. -/
theorem interrupted_clears_and_resets (st : PlayerState) (t : ℚ) (uid : ℕ)
    (a : Option ℚ) (t2 d2 : ℚ) (uid2 : ℕ) :
    ((onMessage t uid ⟨a, true⟩ st).1.active = [] ∧
      (onMessage t uid ⟨a, true⟩ st).1.nextStartTime = 0 ∧
      st.active ⊆ (onMessage t uid ⟨a, true⟩ st).1.stopped) ∧
    (onMessage t2 uid2 ⟨some d2, false⟩ (onMessage t uid ⟨a, true⟩ st).1).2 =
      some (max 0 t2) := by
  cases a with
  | none =>
    refine ⟨⟨rfl, rfl, ?_⟩, rfl⟩
    intro x hx
    simp [onMessage]
    exact Or.inr hx
  | some d =>
    refine ⟨⟨rfl, rfl, ?_⟩, rfl⟩
    intro x hx
    simp [onMessage]
    exact Or.inr (Or.inl hx)

/-- Claim C4: the lifecycle state machine — start from idle lands in
connecting; an open event in connecting lands in connected; stop from any
state lands in idle; an error event or startup failure lands in error from
any state; a close event lands in idle; and from error, start is
re-invocable and follows the connecting-then-connected path. -/
theorem lifecycle_state_machine :
    statusStep .idle .startCall = .connecting ∧
    statusStep .connecting .openEvt = .connected ∧
    (∀ s : SessionStatus, statusStep s .stopCall = .idle) ∧
    (∀ s : SessionStatus, statusStep s .errorEvt = .error) ∧
    (∀ s : SessionStatus, statusStep s .startFail = .error) ∧
    (∀ s : SessionStatus, statusStep s .closeEvt = .idle) ∧
    statusStep .error .startCall = .connecting ∧
    statusStep (statusStep .error .startCall) .openEvt = .connected := by
  refine ⟨rfl, rfl, ?_, ?_, ?_, ?_, rfl, rfl⟩ <;> intro s <;> cases s <;> rfl

/-- Claim C5 (code bug): the claim says every failure while connecting or
connected releases the partially-acquired resources (mic tracks stopped,
audio context closed).  The code's `onError` callback and `startSession`
catch block only set the status: at the failing input — a connected session
holding an acquired stream and context that receives a transport error — the
tracks are still running and the context still open, and the same holds on
the catch path; only `stopSession` releases them. -/
theorem error_transition_releases_nothing :
    (onErrorHandler ⟨.connected, true, false, true, false⟩).status = .error ∧
    (onErrorHandler ⟨.connected, true, false, true, false⟩).micTracksStopped = false ∧
    (onErrorHandler ⟨.connected, true, false, true, false⟩).ctxClosed = false ∧
    (startCatchHandler ⟨.connecting, true, false, true, false⟩).micTracksStopped = false ∧
    (startCatchHandler ⟨.connecting, true, false, true, false⟩).ctxClosed = false ∧
    (stopSessionRes ⟨.connected, true, false, true, false⟩).micTracksStopped = true ∧
    (stopSessionRes ⟨.connected, true, false, true, false⟩).ctxClosed = true :=
  ⟨rfl, rfl, rfl, rfl, rfl, rfl, rfl⟩

theorem jsTrunc_bounds (q : ℚ) (hlo : -32768 ≤ q) (hhi : q < 32768) :
    -32768 ≤ jsTrunc q ∧ jsTrunc q < 32768 := by
  unfold jsTrunc
  split
  · constructor
    · exact le_trans (by norm_num) (Int.floor_nonneg.mpr (by assumption))
    · exact Int.floor_lt.mpr (by exact_mod_cast hhi)
  · constructor
    · have h := Int.le_ceil q
      have : (-32768 : ℚ) ≤ (⌈q⌉ : ℚ) := le_trans hlo h
      exact_mod_cast this
    · have h : ⌈q⌉ ≤ (0 : ℤ) := Int.ceil_le.mpr (by push_cast; linarith)
      omega

/-- Claim C7: the captured-sample conversion multiplies by 32768 and stores
the truncation as a 16-bit signed integer with no clamping: samples in
[-1, 1) map to the exact scaled (truncated) integer, the stored value always
agrees with the scaled integer modulo 2^16 and lies in [-32768, 32768)
(wrapping, not saturating), and the in-range sample 1.0 wraps to -32768. -/
theorem toInt16_wrap_no_clamp :
    (∀ x : ℚ, -1 ≤ x → x < 1 → toInt16 x = jsTrunc (x * 32768)) ∧
    (∀ x : ℚ, toInt16 x % 65536 = jsTrunc (x * 32768) % 65536 ∧
      -32768 ≤ toInt16 x ∧ toInt16 x < 32768) ∧
    toInt16 1 = -32768 := by
  refine ⟨?_, ?_, ?_⟩
  · intro x h1 h2
    have hb := jsTrunc_bounds (x * 32768) (by linarith) (by linarith)
    unfold toInt16
    dsimp only
    split <;> omega
  · intro x
    unfold toInt16
    dsimp only
    split <;> omega
  · have h1 : (1 : ℚ) * 32768 = ((32768 : ℤ) : ℚ) := by norm_num
    have h2 : jsTrunc (1 * 32768) = 32768 := by
      unfold jsTrunc
      rw [h1]
      rw [if_pos (by norm_num)]
      exact Int.floor_intCast 32768
    unfold toInt16
    rw [h2]
    decide

/-- Witness for C7: the sample -0.5 converts to the exact scaled integer
-16384, and 1.0 wraps to -32768. -/
theorem toInt16_wrap_no_clamp_witness :
    toInt16 (-(1 / 2)) = -16384 ∧ toInt16 1 = -32768 := by
  constructor
  · have h := toInt16_wrap_no_clamp.1 (-(1 / 2)) (by norm_num) (by norm_num)
    rw [h]
    have h1 : (-(1 / 2) : ℚ) * 32768 = ((-16384 : ℤ) : ℚ) := by norm_num
    unfold jsTrunc
    rw [h1]
    rw [if_neg (by norm_num)]
    exact Int.ceil_intCast (-16384)
  · exact toInt16_wrap_no_clamp.2.2

theorem foldl_sumsq_le (l : List ℚ) (a : ℚ) :
    a ≤ l.foldl (fun acc x => acc + x * x) a := by
  induction l generalizing a with
  | nil => exact le_refl a
  | cons x l ih =>
    calc a ≤ a + x * x := by nlinarith [mul_self_nonneg x]
    _ ≤ l.foldl (fun acc x => acc + x * x) (a + x * x) := ih (a + x * x)

theorem foldl_sumsq_zero (l : List ℚ) (a : ℚ) (h : ∀ x ∈ l, x = 0) :
    l.foldl (fun acc x => acc + x * x) a = a := by
  induction l generalizing a with
  | nil => rfl
  | cons x l ih =>
    have hx : x = 0 := h x (List.mem_cons_self x l)
    have hrest : ∀ x ∈ l, x = 0 := fun y hy => h y (List.mem_cons_of_mem x hy)
    simp only [List.foldl_cons, hx]
    rw [show a + (0 : ℚ) * 0 = a by ring]
    exact ih a hrest

theorem foldl_sumsq_pos (l : List ℚ) (a y : ℚ) (ha : 0 ≤ a) (hy : y ∈ l)
    (hne : y ≠ 0) : 0 < l.foldl (fun acc x => acc + x * x) a := by
  induction l generalizing a with
  | nil => cases hy
  | cons x l ih =>
    simp only [List.foldl_cons]
    rcases List.mem_cons.mp hy with h | h
    · have hpos : 0 < a + x * x := by
        subst h
        nlinarith [mul_self_nonneg y, sq_abs y, abs_pos.mpr hne]
      exact lt_of_lt_of_le hpos (foldl_sumsq_le l (a + x * x))
    · exact ih (a + x * x) (by nlinarith [mul_self_nonneg x]) h

/-- Claim C6: the per-frame loudness metric is the root-mean-square of the
frame's samples: it is zero for an all-silence frame and strictly positive
for any frame containing a non-zero sample. -/
theorem volume_zero_iff_silence :
    (∀ samples : List ℚ, (∀ x ∈ samples, x = 0) → frameVolume samples = 0) ∧
    (∀ samples : List ℚ, ∀ y ∈ samples, y ≠ 0 → 0 < frameVolume samples) := by
  constructor
  · intro samples h
    unfold frameVolume
    rw [show sumSquares samples = 0 from foldl_sumsq_zero samples 0 h]
    simp
  · intro samples y hy hne
    unfold frameVolume
    apply Real.sqrt_pos.mpr
    have hlen : 0 < (samples.length : ℚ) := by
      have : samples ≠ [] := List.ne_nil_of_mem hy
      have := List.length_pos.mpr this
      exact_mod_cast this
    have hsum : 0 < sumSquares samples :=
      foldl_sumsq_pos samples 0 y (le_refl 0) hy hne
    have : (0 : ℚ) < sumSquares samples / (samples.length : ℚ) :=
      div_pos hsum hlen
    exact_mod_cast this

/-- Witness for C6: the all-silence frame [0, 0] has loudness zero, and the
frame [1/2, 0] with a non-zero sample has strictly positive loudness. -/
theorem volume_zero_iff_silence_witness :
    frameVolume [0, 0] = 0 ∧ 0 < frameVolume [1 / 2, 0] :=
  ⟨volume_zero_iff_silence.1 [0, 0] (by simp),
   volume_zero_iff_silence.2 [1 / 2, 0] (1 / 2) (by simp) (by norm_num)⟩

/-- Claim C8: a frame pushed through the send path while the session promise
is still pending is queued (its callback deferred until resolution) with the
promise left pending and nothing sent; with a null session ref it is
silently dropped; and against a rejected (failed) connection every frame is
dropped without retry — in all three cases every frame of the run is
processed (none raises, none blocks the rest) and the send log gains
nothing. -/
theorem send_path_queues_or_drops (q sent frames : List ℕ) :
    processFrames (some ⟨.pending, q⟩) sent frames =
      (some ⟨.pending, q ++ frames⟩, sent) ∧
    processFrames (some ⟨.rejected, q⟩) sent frames =
      (some ⟨.rejected, q⟩, sent) ∧
    processFrames none sent frames = (none, sent) := by
  induction frames generalizing q sent with
  | nil => exact ⟨by simp [processFrames], rfl, rfl⟩
  | cons f fs ih =>
    refine ⟨?_, ?_, ?_⟩
    · have h := (ih (q ++ [f]) sent).1
      simp only [processFrames, sendFrame] at h ⊢
      rw [h]
      simp
    · have h := (ih q sent).2.1
      simp only [processFrames, sendFrame] at h ⊢
      exact h
    · have h := (ih q sent).2.2
      simp only [processFrames, sendFrame] at h ⊢
      exact h

/-- Claim C9: saving an item on top of any prior stored list stores the new
item at position 0 followed by the prior items in order, truncated to at
most 50 entries; and `getHistory` returns the empty list (rather than
failing) when nothing is stored or the stored value cannot be parsed. -/
theorem history_newest_first_truncated (item : HistoryItem)
    (prior : List HistoryItem) :
    saveHistoryItem item (.valid prior) = .valid (item :: prior.take 49) ∧
    (item :: prior.take 49).length ≤ 50 ∧
    getHistory .absent = [] ∧
    getHistory .corrupt = [] ∧
    saveHistoryItem item .absent = .valid [item] ∧
    saveHistoryItem item .corrupt = .valid [item] := by
  refine ⟨?_, ?_, rfl, rfl, rfl, rfl⟩
  · rfl
  · have h := List.length_take_le 49 prior
    simp only [List.length_cons]
    omega

end Fluency
